import Mathlib

/-!
Verification of the window-sort iterator adapter.

The source program is a Rust iterator adapter `WindowSort<I>`: it owns an
underlying iterator `orig`, a `window_size`, and a `BinaryHeap` `heap`.
Its `next` tops the heap up to `window_size` items (stopping early when the
underlying iterator reports exhaustion) and then pops the greatest item.

Embedding choices:
- An iterator is a state type `σ` together with a step function
  `σ → Option β × σ` (Rust's `fn next(&mut self) -> Option<Item>`: the state
  advances on every poll, also on a `None` report).
- The binary heap is modelled by the list of its elements; `push` appends and
  `pop` removes one greatest element (the first greatest occurrence).  Only the
  multiset of heap elements and the value popped are observable, which is
  exactly what `BinaryHeap` guarantees.
- Comparison goes through a key function `key : β → α` into a linear order.
  The source compares items directly (`key = id`); running the same algorithm
  on position-tagged items with `key = Prod.snd` instruments the run with input
  positions without changing any comparison.
- The fill loop runs at most `window_size - heap.length` iterations (each
  iteration either pushes one item or breaks), so it is written with that
  iteration count as explicit structural fuel.
- `usize` is modelled as `Nat`; `saturating_add` caps at `2 ^ 64 - 1`.
-/

namespace WindowSortIter

/-- Model of `usize::MAX` on a 64-bit target. -/
def USIZE_MAX : Nat := 2 ^ 64 - 1

/-- Model of `usize::saturating_add`. -/
def satAdd (a b : Nat) : Nat := min (a + b) USIZE_MAX

/-- The `WindowSort` struct: underlying iterator state, window size, heap. -/
structure WindowSort (σ β : Type) where
  orig : σ
  window_size : Nat
  heap : List β

variable {α β σ : Type}

/-- `BinaryHeap::pop`, on the list of heap elements: remove and return the
first occurrence of a greatest element (by `key`), or `none` when empty. -/
def popMaxBy [LinearOrder α] (key : β → α) : List β → Option (β × List β)
  | [] => none
  | x :: xs =>
    match popMaxBy key xs with
    | none => some (x, [])
    | some (m, rest) => if key x < key m then some (m, x :: rest) else some (x, xs)

/-- The fill loop body of `WindowSort::next`, with its iteration count as
explicit fuel: while the heap holds fewer than `window_size` items, poll the
underlying iterator; push the item if one is yielded, stop at an exhaustion
report.  Each iteration pushes one item, so the loop runs at most
`window_size - heap.length` times, which is the fuel `fill` passes in. -/
def fillAux (step : σ → Option β × σ) (window_size : Nat) :
    Nat → σ → List β → σ × List β
  | 0, s, h => (s, h)
  | fuel + 1, s, h =>
    if h.length < window_size then
      match step s with
      | (some a, s') => fillAux step window_size fuel s' (h ++ [a])
      | (none, s') => (s', h)
    else (s, h)

/-- The fill loop of `WindowSort::next`. -/
def fill (step : σ → Option β × σ) (window_size : Nat) (s : σ) (h : List β) :
    σ × List β :=
  fillAux step window_size (window_size - h.length) s h

/-- `WindowSort::next`: fill the heap, then pop the greatest item; returns the
yielded item (or `none`) together with the mutated adapter state. -/
def WindowSort.next [LinearOrder α] (key : β → α) (step : σ → Option β × σ)
    (w : WindowSort σ β) : Option β × WindowSort σ β :=
  match fill step w.window_size w.orig w.heap with
  | (s', h') =>
    match popMaxBy key h' with
    | none => (none, ⟨s', w.window_size, h'⟩)
    | some (m, rest) => (some m, ⟨s', w.window_size, rest⟩)

/-- `WindowSort::size_hint`: add the heap length to both components of the
underlying iterator's size hint, with `usize` saturation. -/
def WindowSort.size_hint (hint : σ → Nat × Option Nat) (w : WindowSort σ β) :
    Nat × Option Nat :=
  let heap_items := w.heap.length
  match hint w.orig with
  | (lower, some upper) => (satAdd lower heap_items, some (satAdd upper heap_items))
  | (lower, none) => (satAdd lower heap_items, none)

/-- The free function `window_sort`: construct the adapter with an empty heap. -/
def window_sort (xs : σ) (window_size : Nat) : WindowSort σ β :=
  ⟨xs, window_size, []⟩

/-- The extension-trait method `WindowSortIterExt::window_sort`, whose body is
a call to the free function `window_sort`. -/
def WindowSortIterExt.window_sort (self : σ) (window_size : Nat) : WindowSort σ β :=
  WindowSortIter.window_sort self window_size

/-- Collect the items yielded by repeatedly calling `next`, up to `fuel` calls,
stopping at the first `none`. -/
def runNext [LinearOrder α] (key : β → α) (step : σ → Option β × σ) :
    Nat → WindowSort σ β → List β
  | 0, _ => []
  | fuel + 1, w =>
    match WindowSort.next key step w with
    | (none, _) => []
    | (some a, w') => a :: runNext key step fuel w'

/-- Iterate the state part of `next` `n` times. -/
def iterNexts [LinearOrder α] (key : β → α) (step : σ → Option β × σ) :
    Nat → WindowSort σ β → WindowSort σ β
  | 0, w => w
  | n + 1, w => iterNexts key step n (WindowSort.next key step w).2

/-- The iterator over a list: yield the head, state advances to the tail. -/
def listStep : List β → Option β × List β
  | [] => (none, [])
  | x :: xs => (some x, xs)

/-- The iterator over a list, instrumented with a flag that records whether
exhaustion has ever been reported. -/
def flagStep : List β × Bool → Option β × (List β × Bool)
  | ([], _) => (none, ([], true))
  | (x :: xs, f) => (some x, (xs, f))

/-- Tag each list element with its position, starting at `k`. -/
def tagFrom (k : Nat) : List α → List (Nat × α)
  | [] => []
  | x :: xs => (k, x) :: tagFrom (k + 1) xs

/-- A sticky iterator: a poll answered by an exhaustion report is followed by
another exhaustion report (hence, inductively, by nothing but exhaustion
reports). -/
def Sticky (step : σ → Option β × σ) : Prop :=
  ∀ s, (step s).1 = none → (step (step s).2).1 = none

/-- The full output sequence of the adapter over a finite list input:
`l.length` calls to `next` suffice to drain it. -/
def windowSortRun [LinearOrder α] (window_size : Nat) (l : List α) : List α :=
  runNext id listStep l.length (window_sort l window_size)

/-- The full output sequence over a finite list input whose items carry their
input position, compared by value only. -/
def windowSortTagged [LinearOrder α] (window_size : Nat) (l : List α) :
    List (Nat × α) :=
  runNext Prod.snd listStep l.length (window_sort (tagFrom 0 l) window_size)

/-! ### Properties of the heap pop -/

theorem popMaxBy_cons_eq [LinearOrder α] (key : β → α) (x : β) (xs : List β) :
    popMaxBy key (x :: xs) =
      match popMaxBy key xs with
      | none => some (x, [])
      | some (m, rest) =>
          if key x < key m then some (m, x :: rest) else some (x, xs) := rfl

theorem popMaxBy_eq_none_iff [LinearOrder α] (key : β → α) :
    ∀ l : List β, popMaxBy key l = none ↔ l = []
  | [] => by simp [popMaxBy]
  | x :: xs => by
    rw [popMaxBy_cons_eq]
    cases hp : popMaxBy key xs with
    | none => simp
    | some p =>
      obtain ⟨m, rest⟩ := p
      by_cases hk : key x < key m <;> simp [hk]

theorem popMaxBy_perm [LinearOrder α] (key : β → α) :
    ∀ {l : List β} {m : β} {rest : List β},
      popMaxBy key l = some (m, rest) → l.Perm (m :: rest) := by
  intro l
  induction l with
  | nil => intro m rest h; simp [popMaxBy] at h
  | cons x xs ih =>
    intro m rest h
    rw [popMaxBy_cons_eq] at h
    cases hp : popMaxBy key xs with
    | none =>
      rw [hp] at h
      have hxs : xs = [] := (popMaxBy_eq_none_iff key xs).mp hp
      simp only [Option.some.injEq, Prod.mk.injEq] at h
      obtain ⟨rfl, rfl⟩ := h
      rw [hxs]
    | some p =>
      obtain ⟨m', r'⟩ := p
      rw [hp] at h
      simp only at h
      by_cases hk : key x < key m'
      · rw [if_pos hk] at h
        simp only [Option.some.injEq, Prod.mk.injEq] at h
        obtain ⟨rfl, rfl⟩ := h
        exact ((ih hp).cons x).trans (List.Perm.swap m' x r')
      · rw [if_neg hk] at h
        simp only [Option.some.injEq, Prod.mk.injEq] at h
        obtain ⟨rfl, rfl⟩ := h
        exact List.Perm.refl _

theorem popMaxBy_le [LinearOrder α] (key : β → α) :
    ∀ {l : List β} {m : β} {rest : List β},
      popMaxBy key l = some (m, rest) → ∀ y ∈ l, key y ≤ key m := by
  intro l
  induction l with
  | nil => intro m rest h; simp [popMaxBy] at h
  | cons x xs ih =>
    intro m rest h
    rw [popMaxBy_cons_eq] at h
    cases hp : popMaxBy key xs with
    | none =>
      rw [hp] at h
      have hxs : xs = [] := (popMaxBy_eq_none_iff key xs).mp hp
      simp only [Option.some.injEq, Prod.mk.injEq] at h
      obtain ⟨rfl, rfl⟩ := h
      subst hxs
      intro y hy
      rcases List.mem_cons.mp hy with rfl | hy
      · exact le_rfl
      · simp at hy
    | some p =>
      obtain ⟨m', r'⟩ := p
      rw [hp] at h
      simp only at h
      by_cases hk : key x < key m'
      · rw [if_pos hk] at h
        simp only [Option.some.injEq, Prod.mk.injEq] at h
        obtain ⟨rfl, rfl⟩ := h
        intro y hy
        rcases List.mem_cons.mp hy with rfl | hy
        · exact le_of_lt hk
        · exact ih hp y hy
      · rw [if_neg hk] at h
        simp only [Option.some.injEq, Prod.mk.injEq] at h
        obtain ⟨rfl, rfl⟩ := h
        intro y hy
        rcases List.mem_cons.mp hy with rfl | hy
        · exact le_rfl
        · exact le_trans (ih hp y hy) (not_lt.mp hk)

theorem popMaxBy_mem [LinearOrder α] (key : β → α) {l : List β} {m : β}
    {rest : List β} (h : popMaxBy key l = some (m, rest)) : m ∈ l :=
  (popMaxBy_perm key h).symm.subset (List.mem_cons_self m rest)

theorem popMaxBy_length [LinearOrder α] (key : β → α) {l : List β} {m : β}
    {rest : List β} (h : popMaxBy key l = some (m, rest)) :
    l.length = rest.length + 1 := by
  simpa using (popMaxBy_perm key h).length_eq

/-! ### Properties of the fill loop -/

theorem fillAux_heap_append (step : σ → Option β × σ) (ws : Nat) :
    ∀ (fuel : Nat) (s : σ) (h : List β),
      ∃ t, (fillAux step ws fuel s h).2 = h ++ t := by
  intro fuel
  induction fuel with
  | zero => intro s h; exact ⟨[], by simp [fillAux]⟩
  | succ fuel ih =>
    intro s h
    by_cases hlt : h.length < ws
    · rcases hs : step s with ⟨o, s'⟩
      cases o with
      | some a =>
        obtain ⟨t, ht⟩ := ih s' (h ++ [a])
        refine ⟨a :: t, ?_⟩
        simp only [fillAux, if_pos hlt, hs]
        simp [ht]
      | none =>
        refine ⟨[], ?_⟩
        simp [fillAux, if_pos hlt, hs]
    · exact ⟨[], by simp [fillAux, if_neg hlt]⟩

theorem fillAux_length_le (step : σ → Option β × σ) (ws : Nat) :
    ∀ (fuel : Nat) (s : σ) (h : List β),
      h.length ≤ ws → (fillAux step ws fuel s h).2.length ≤ ws := by
  intro fuel
  induction fuel with
  | zero => intro s h hle; simpa [fillAux] using hle
  | succ fuel ih =>
    intro s h hle
    by_cases hlt : h.length < ws
    · rcases hs : step s with ⟨o, s'⟩
      cases o with
      | some a =>
        have : (h ++ [a]).length ≤ ws := by
          simp only [List.length_append, List.length_cons, List.length_nil]
          omega
        simpa only [fillAux, if_pos hlt, hs] using ih s' (h ++ [a]) this
      | none => simpa only [fillAux, if_pos hlt, hs] using hle
    · simpa only [fillAux, if_neg hlt] using hle

/-! ### The list-iterator instance of the fill loop -/

theorem fillAux_listStep (ws : Nat) :
    ∀ (fuel : Nat) (l h : List β),
      fillAux listStep ws fuel l h =
        (l.drop (min fuel (ws - h.length)),
         h ++ l.take (min fuel (ws - h.length))) := by
  intro fuel
  induction fuel with
  | zero => intro l h; simp [fillAux]
  | succ fuel ih =>
    intro l h
    by_cases hlt : h.length < ws
    · cases l with
      | nil => simp [fillAux, if_pos hlt, listStep]
      | cons x xs =>
        have hmin : min (fuel + 1) (ws - h.length) =
            min fuel (ws - (h.length + 1)) + 1 := by omega
        simp only [fillAux, if_pos hlt, listStep]
        rw [ih xs (h ++ [x])]
        simp only [List.length_append, List.length_cons, List.length_nil,
          Nat.zero_add]
        rw [hmin]
        simp [List.drop_succ_cons, List.take_succ_cons]
    · have h0 : ws - h.length = 0 := by omega
      simp [fillAux, if_neg hlt, h0]

theorem fill_listStep (ws : Nat) (l h : List β) :
    fill listStep ws l h =
      (l.drop (ws - h.length), h ++ l.take (ws - h.length)) := by
  simp [fill, fillAux_listStep, min_self]

theorem next_listStep [LinearOrder α] (key : β → α) (ws : Nat) (l h : List β) :
    WindowSort.next key listStep ⟨l, ws, h⟩ =
      match popMaxBy key (h ++ l.take (ws - h.length)) with
      | none => (none, ⟨l.drop (ws - h.length), ws, h ++ l.take (ws - h.length)⟩)
      | some (m, rest) => (some m, ⟨l.drop (ws - h.length), ws, rest⟩) := by
  simp [WindowSort.next, fill_listStep]

theorem runNext_listStep_succ [LinearOrder α] (key : β → α) (fuel ws : Nat)
    (l h : List β) :
    runNext key listStep (fuel + 1) ⟨l, ws, h⟩ =
      match popMaxBy key (h ++ l.take (ws - h.length)) with
      | none => []
      | some (m, rest) =>
          m :: runNext key listStep fuel ⟨l.drop (ws - h.length), ws, rest⟩ := by
  rw [runNext, next_listStep]
  cases hp : popMaxBy key (h ++ l.take (ws - h.length)) with
  | none => rfl
  | some p => obtain ⟨m, rest⟩ := p; rfl

/-! ### The permutation property of a run -/

theorem runNext_perm [LinearOrder α] (key : β → α) :
    ∀ (fuel ws : Nat) (l h : List β),
      l.length + h.length ≤ fuel → (1 ≤ ws ∨ l = []) →
      (runNext key listStep fuel ⟨l, ws, h⟩).Perm (h ++ l) := by
  intro fuel
  induction fuel with
  | zero =>
    intro ws l h hlen _
    have hl : l = [] := by
      cases l with
      | nil => rfl
      | cons a t => simp at hlen
    have hh : h = [] := by
      cases h with
      | nil => rfl
      | cons a t => simp at hlen
    subst hl; subst hh
    exact List.Perm.refl _
  | succ fuel ih =>
    intro ws l h hlen hws
    rw [runNext_listStep_succ]
    cases hp : popMaxBy key (h ++ l.take (ws - h.length)) with
    | none =>
      have he : h ++ l.take (ws - h.length) = [] :=
        (popMaxBy_eq_none_iff key _).mp hp
      have hh : h = [] := by
        cases h with
        | nil => rfl
        | cons a t => simp at he
      subst hh
      simp only [List.nil_append] at he ⊢
      have hl : l = [] := by
        rcases hws with hws | hws
        · cases l with
          | nil => rfl
          | cons a t =>
            rw [show ws - List.length ([] : List β) = ws from by simp] at he
            cases ws with
            | zero => omega
            | succ k => simp [List.take_succ_cons] at he
        · exact hws
      subst hl
      exact List.Perm.refl _
    | some p =>
      obtain ⟨m, rest⟩ := p
      have hperm := popMaxBy_perm key hp
      have hlen2 : (h ++ l.take (ws - h.length)).length = rest.length + 1 :=
        popMaxBy_length key hp
      have htd : (l.take (ws - h.length)).length + (l.drop (ws - h.length)).length
          = l.length := by
        rw [← List.length_append, List.take_append_drop]
      have hfuel : (l.drop (ws - h.length)).length + rest.length ≤ fuel := by
        simp only [List.length_append] at hlen2
        omega
      have hws' : 1 ≤ ws ∨ l.drop (ws - h.length) = [] := by
        rcases hws with hws | hws
        · exact Or.inl hws
        · exact Or.inr (by simp [hws])
      have ihp := ih ws (l.drop (ws - h.length)) rest hfuel hws'
      have step1 : (m :: runNext key listStep fuel
          ⟨l.drop (ws - h.length), ws, rest⟩).Perm
          (m :: (rest ++ l.drop (ws - h.length))) := ihp.cons m
      have step2 : (m :: (rest ++ l.drop (ws - h.length))).Perm
          ((h ++ l.take (ws - h.length)) ++ l.drop (ws - h.length)) :=
        hperm.symm.append_right _
      have step3 : (h ++ l.take (ws - h.length)) ++ l.drop (ws - h.length)
          = h ++ l := by
        rw [List.append_assoc, List.take_append_drop]
      exact (step1.trans step2).trans (step3 ▸ List.Perm.refl _)

/-! ### Sortedness of a run that fits in the window -/

theorem runNext_sorted [LinearOrder α] :
    ∀ (fuel ws : Nat) (l h : List α),
      l.length + h.length ≤ fuel → l.length + h.length ≤ ws →
      ((runNext id listStep fuel ⟨l, ws, h⟩).Sorted (· ≥ ·)) := by
  intro fuel
  induction fuel with
  | zero => intro ws l h _ _; exact List.sorted_nil
  | succ fuel ih =>
    intro ws l h hlen hfits
    rw [runNext_listStep_succ]
    cases hp : popMaxBy id (h ++ l.take (ws - h.length)) with
    | none => exact List.sorted_nil
    | some p =>
      obtain ⟨m, rest⟩ := p
      have hperm := popMaxBy_perm id hp
      have hub := popMaxBy_le id hp
      have hlen2 : (h ++ l.take (ws - h.length)).length = rest.length + 1 :=
        popMaxBy_length id hp
      have htd : (l.take (ws - h.length)).length + (l.drop (ws - h.length)).length
          = l.length := by
        rw [← List.length_append, List.take_append_drop]
      have htake : (l.take (ws - h.length)).length = min (ws - h.length) l.length :=
        List.length_take _ _
      have hall : l.take (ws - h.length) = l := by
        apply List.take_of_length_le
        omega
      have hdrop : l.drop (ws - h.length) = [] := by
        apply List.drop_eq_nil_of_le
        omega
      have hfuel : (l.drop (ws - h.length)).length + rest.length ≤ fuel := by
        simp only [List.length_append] at hlen2
        omega
      have hfits' : (l.drop (ws - h.length)).length + rest.length ≤ ws := by
        simp only [List.length_append] at hlen2
        omega
      rw [List.sorted_cons]
      constructor
      · intro b hb
        have hbr : b ∈ rest ++ l.drop (ws - h.length) :=
          (runNext_perm id fuel ws _ rest hfuel
            (Or.inr (by rw [hdrop]))).subset hb
        rw [hdrop, List.append_nil] at hbr
        have : b ∈ h ++ l.take (ws - h.length) :=
          hperm.symm.subset (List.mem_cons_of_mem m hbr)
        exact hub b this
      · exact ih ws (l.drop (ws - h.length)) rest hfuel hfits'

/-! ### Degenerate windows -/

theorem runNext_zero_window [LinearOrder α] (key : β → α) (fuel : Nat)
    (l : List β) : runNext key listStep fuel ⟨l, 0, []⟩ = [] := by
  cases fuel with
  | zero => rfl
  | succ fuel =>
    rw [runNext_listStep_succ]
    simp [popMaxBy]

theorem runNext_one [LinearOrder α] :
    ∀ (fuel : Nat) (l : List α), l.length ≤ fuel →
      runNext id listStep fuel ⟨l, 1, []⟩ = l := by
  intro fuel
  induction fuel with
  | zero =>
    intro l hl
    cases l with
    | nil => rfl
    | cons x xs => simp at hl
  | succ fuel ih =>
    intro l hl
    rw [runNext_listStep_succ]
    cases l with
    | nil => simp [popMaxBy]
    | cons x xs =>
      simp only [List.nil_append, List.length_nil, Nat.sub_zero]
      rw [show List.take 1 (x :: xs) = [x] by simp,
          show List.drop 1 (x :: xs) = xs from rfl,
          show popMaxBy id [x] = some (x, []) from rfl]
      show x :: runNext id listStep fuel ⟨xs, 1, []⟩ = x :: xs
      rw [ih xs (by simp only [List.length_cons] at hl; omega)]

/-! ### Maximum via foldl -/

theorem le_foldl_max [LinearOrder α] :
    ∀ (t : List α) (x : α), x ≤ t.foldl max x := by
  intro t
  induction t with
  | nil => intro x; exact le_rfl
  | cons y t ih =>
    intro x
    exact le_trans (le_max_left x y) (ih (max x y))

theorem mem_le_foldl_max [LinearOrder α] :
    ∀ (t : List α) (x y : α), y ∈ t → y ≤ t.foldl max x := by
  intro t
  induction t with
  | nil => intro x y hy; simp at hy
  | cons z t ih =>
    intro x y hy
    rcases List.mem_cons.mp hy with rfl | hy
    · exact le_trans (le_max_right x y) (le_foldl_max t (max x y))
    · exact ih (max x z) y hy

theorem foldl_max_mem [LinearOrder α] :
    ∀ (t : List α) (x : α), t.foldl max x = x ∨ t.foldl max x ∈ t := by
  intro t
  induction t with
  | nil => intro x; exact Or.inl rfl
  | cons z t ih =>
    intro x
    rcases ih (max x z) with h | h
    · rcases max_choice x z with hm | hm
      · exact Or.inl (by rw [List.foldl_cons, h, hm])
      · exact Or.inr (by rw [List.foldl_cons, h, hm]; exact List.mem_cons_self z t)
    · exact Or.inr (List.mem_cons_of_mem z h)

/-! ### Claim C1: the output is a permutation of the input -/

/-- C1 (amended): for every `window_size ≥ 1` and every finite input list, the
sequence of items yielded until exhaustion is a permutation of the input: equal
multisets and equal lengths.  (With `window_size = 0` the fill loop never runs
and the adapter yields nothing, so the restriction to `window_size ≥ 1` is
necessary.) -/
theorem windowSortRun_perm_of_one_le [LinearOrder α] (window_size : Nat)
    (l : List α) (hws : 1 ≤ window_size) :
    ((windowSortRun window_size l : List α) : Multiset α) = (l : Multiset α) ∧
      (windowSortRun window_size l).length = l.length := by
  have hp : (windowSortRun window_size l).Perm l := by
    simpa [windowSortRun, window_sort] using
      runNext_perm id l.length window_size l [] (by simp) (Or.inl hws)
  exact ⟨Multiset.coe_eq_coe.mpr hp, hp.length_eq⟩

/-- Witness for C1's theorem at `window_size = 2`, input `[4, 2, 3, 1]`. -/
theorem windowSortRun_perm_of_one_le_witness :
    1 ≤ 2 ∧
      (((windowSortRun 2 [4, 2, 3, 1] : List Nat) : Multiset Nat) =
          (([4, 2, 3, 1] : List Nat) : Multiset Nat) ∧
        (windowSortRun 2 ([4, 2, 3, 1] : List Nat)).length =
          ([4, 2, 3, 1] : List Nat).length) :=
  ⟨by decide, windowSortRun_perm_of_one_le 2 [4, 2, 3, 1] (by decide)⟩

/-- Counterexample to C1 as stated: with `window_size = 0` and input `[1, 2]`
the adapter yields nothing, so neither the multiset nor the length of the
output matches the input. -/
theorem windowSortRun_zero_not_perm :
    ¬ (((windowSortRun 0 [1, 2] : List Nat) : Multiset Nat) =
          (([1, 2] : List Nat) : Multiset Nat) ∧
        (windowSortRun 0 ([1, 2] : List Nat)).length =
          ([1, 2] : List Nat).length) := by
  intro h
  have h2 := h.2
  rw [show windowSortRun 0 ([1, 2] : List Nat) = [] from rfl] at h2
  simp at h2

/-! ### Claim C3: degenerate window sizes -/

/-- C3 (amended): `window_size = 1` passes the input through unchanged, but
`window_size = 0` yields the empty output (the fill loop `while heap.len() <
0` never runs, so `heap.pop()` always returns `None`), not the input. -/
theorem windowSortRun_degenerate [LinearOrder α] (l : List α) :
    windowSortRun 1 l = l ∧ windowSortRun 0 l = [] :=
  ⟨runNext_one l.length l le_rfl, runNext_zero_window id l.length l⟩

/-- Counterexample to C3 as stated: with `window_size = 0` the output of input
`[1]` is `[]`, not the input. -/
theorem windowSortRun_zero_ne_input :
    ¬ (windowSortRun 0 ([1] : List Nat) = [1]) := by
  rw [show windowSortRun 0 ([1] : List Nat) = [] from rfl]
  simp

/-! ### Claim C5: inputs that fit entirely in the window are fully sorted -/

/-- C5: if the input's length is at most `window_size`, the output is the
input fully sorted in descending order: a permutation of the input that is
sorted by `≥`. -/
theorem windowSortRun_sorted_of_le_window [LinearOrder α] (window_size : Nat)
    (l : List α) (hlen : l.length ≤ window_size) :
    (windowSortRun window_size l).Perm l ∧
      (windowSortRun window_size l).Sorted (· ≥ ·) := by
  have hperm : (windowSortRun window_size l).Perm l := by
    cases l with
    | nil => exact List.Perm.refl _
    | cons x xs =>
      have hws : 1 ≤ window_size := le_trans (by simp) hlen
      simpa [windowSortRun, window_sort] using
        runNext_perm id (x :: xs).length window_size (x :: xs) []
          (by simp) (Or.inl hws)
  refine ⟨hperm, ?_⟩
  simpa [windowSortRun, window_sort] using
    runNext_sorted l.length window_size l [] (by simp) (by simpa using hlen)

/-- Witness for C5's theorem at `window_size = 10`, input `[2, 3, 4, 1]`. -/
theorem windowSortRun_sorted_of_le_window_witness :
    ([2, 3, 4, 1] : List Nat).length ≤ 10 ∧
      ((windowSortRun 10 ([2, 3, 4, 1] : List Nat)).Perm [2, 3, 4, 1] ∧
        (windowSortRun 10 ([2, 3, 4, 1] : List Nat)).Sorted (· ≥ ·)) :=
  ⟨by decide, windowSortRun_sorted_of_le_window 10 [2, 3, 4, 1] (by decide)⟩

/-! ### Claim C9: the extension method equals the free function -/

/-- C9: the adapter obtained through the fluent extension method is the very
adapter obtained from the free constructor, and running either one produces
the same output sequence. -/
theorem window_sort_ext_eq [LinearOrder α] (key : β → α)
    (step : σ → Option β × σ) (xs : σ) (window_size fuel : Nat) :
    WindowSortIterExt.window_sort xs window_size =
        (window_sort xs window_size : WindowSort σ β) ∧
      runNext key step fuel
          (WindowSortIterExt.window_sort xs window_size : WindowSort σ β) =
        runNext key step fuel (window_sort xs window_size) :=
  ⟨rfl, rfl⟩

/-! ### Claim C10: the first item is the maximum of the initial window -/

/-- C10: for `window_size ≥ 1` and a non-empty input `x :: xs`, the first item
yielded is the maximum of the first `min window_size (length input)` input
items, i.e. of `x` and the next `window_size - 1` items. -/
theorem windowSortRun_head_max [LinearOrder α] (window_size : Nat) (x : α)
    (xs : List α) (hws : 1 ≤ window_size) :
    (windowSortRun window_size (x :: xs)).head? =
      some ((xs.take (window_size - 1)).foldl max x) := by
  obtain ⟨k, rfl⟩ : ∃ k, window_size = k + 1 :=
    ⟨window_size - 1, by omega⟩
  simp only [windowSortRun, window_sort, List.length_cons]
  rw [runNext_listStep_succ]
  simp only [List.nil_append, List.length_nil, Nat.sub_zero,
    List.take_succ_cons, Nat.add_sub_cancel]
  cases hp : popMaxBy id (x :: List.take k xs) with
  | none =>
    exact absurd ((popMaxBy_eq_none_iff id _).mp hp) (by simp)
  | some p =>
    obtain ⟨m, rest⟩ := p
    show some m = some ((xs.take k).foldl max x)
    have hm : m = (xs.take k).foldl max x := by
      apply le_antisymm
      · rcases List.mem_cons.mp (popMaxBy_mem id hp) with rfl | hmem
        · exact le_foldl_max _ _
        · exact mem_le_foldl_max _ _ _ hmem
      · rcases foldl_max_mem (xs.take k) x with hf | hf
        · rw [hf]
          simpa using popMaxBy_le id hp x (List.mem_cons_self x _)
        · simpa using popMaxBy_le id hp _ (List.mem_cons_of_mem x hf)
    rw [hm]

/-- Witness for C10's theorem at `window_size = 2`, input `[4, 2, 3, 1]`. -/
theorem windowSortRun_head_max_witness :
    1 ≤ 2 ∧
      (windowSortRun 2 ((4 : Nat) :: [2, 3, 1])).head? =
        some (([2, 3, 1].take (2 - 1)).foldl max 4) :=
  ⟨by decide, windowSortRun_head_max 2 4 [2, 3, 1] (by decide)⟩

/-! ### Specialized step equations for list-iterator runs -/

theorem runNext_listStep_succ_none [LinearOrder α] (key : β → α) {fuel ws : Nat}
    {l h : List β} (hp : popMaxBy key (h ++ l.take (ws - h.length)) = none) :
    runNext key listStep (fuel + 1) ⟨l, ws, h⟩ = [] := by
  rw [runNext_listStep_succ, hp]

theorem runNext_listStep_succ_some [LinearOrder α] (key : β → α) {fuel ws : Nat}
    {l h : List β} {m : β} {rest : List β}
    (hp : popMaxBy key (h ++ l.take (ws - h.length)) = some (m, rest)) :
    runNext key listStep (fuel + 1) ⟨l, ws, h⟩ =
      m :: runNext key listStep fuel ⟨l.drop (ws - h.length), ws, rest⟩ := by
  rw [runNext_listStep_succ, hp]

/-! ### Position tags -/

theorem length_tagFrom : ∀ (k : Nat) (l : List α), (tagFrom k l).length = l.length
  | _, [] => rfl
  | k, _ :: xs => by simp [tagFrom, length_tagFrom (k + 1) xs]

theorem mem_tagFrom_le : ∀ (k : Nat) (l : List α) (p : Nat × α),
    p ∈ tagFrom k l → k ≤ p.1
  | k, [], p => by simp [tagFrom]
  | k, x :: xs, p => by
    intro hp
    rcases List.mem_cons.mp hp with rfl | hp
    · exact le_rfl
    · exact le_trans (Nat.le_succ k) (mem_tagFrom_le (k + 1) xs p hp)

theorem pairwise_tagFrom : ∀ (k : Nat) (l : List α),
    (tagFrom k l).Pairwise (fun p q => p.1 < q.1)
  | _, [] => List.Pairwise.nil
  | k, x :: xs => by
    refine List.Pairwise.cons ?_ (pairwise_tagFrom (k + 1) xs)
    intro q hq
    exact lt_of_lt_of_le (Nat.lt_succ_self k) (mem_tagFrom_le (k + 1) xs q hq)

theorem get_mem_tagFrom : ∀ (k : Nat) (l : List α) (i : Nat) (h : i < l.length),
    (k + i, l.get ⟨i, h⟩) ∈ tagFrom k l
  | k, [], i, h => by simp at h
  | k, x :: xs, 0, h => by simp [tagFrom]
  | k, x :: xs, i + 1, h => by
    have := get_mem_tagFrom (k + 1) xs i (by simpa using h)
    refine List.mem_cons_of_mem _ ?_
    simpa [Nat.add_assoc, Nat.add_comm 1 i] using this

/-! ### Emission order of tagged items -/

theorem runNext_tag_order [LinearOrder α] :
    ∀ (fuel ws : Nat) (orig heap : List (Nat × α)),
      orig.length + heap.length ≤ fuel → 1 ≤ ws →
      (∀ p ∈ heap, ∀ q ∈ orig, p.1 < q.1) →
      orig.Pairwise (fun p q => p.1 < q.1) →
      ∀ p q : Nat × α, p ∈ heap ++ orig → q ∈ heap ++ orig →
        p.1 < q.1 → q.2 < p.2 →
        List.Sublist [p.1, q.1]
          ((runNext Prod.snd listStep fuel ⟨orig, ws, heap⟩).map Prod.fst) := by
  intro fuel
  induction fuel with
  | zero =>
    intro ws orig heap hlen _ _ _ p q hp _ _ _
    have ho : orig = [] := List.length_eq_zero.mp (by omega)
    have hh : heap = [] := List.length_eq_zero.mp (by omega)
    rw [ho, hh] at hp
    simp at hp
  | succ fuel ih =>
    intro ws orig heap hlen hws hdisj hpw p q hp hq hpq hval
    have hTD : (heap ++ orig.take (ws - heap.length)) ++
        orig.drop (ws - heap.length) = heap ++ orig := by
      rw [List.append_assoc, List.take_append_drop]
    have hcross : ∀ a ∈ heap ++ orig.take (ws - heap.length),
        ∀ b ∈ orig.drop (ws - heap.length), a.1 < b.1 := by
      intro a ha b hb
      rcases List.mem_append.mp ha with ha | ha
      · exact hdisj a ha b (List.drop_subset _ orig hb)
      · have hsplit := hpw
        rw [← List.take_append_drop (ws - heap.length) orig,
          List.pairwise_append] at hsplit
        exact hsplit.2.2 a ha b hb
    have hpw' : (orig.drop (ws - heap.length)).Pairwise (fun p q => p.1 < q.1) :=
      hpw.sublist (List.drop_sublist _ orig)
    cases hpop : popMaxBy Prod.snd (heap ++ orig.take (ws - heap.length)) with
    | none =>
      exfalso
      have hT : heap ++ orig.take (ws - heap.length) = [] :=
        (popMaxBy_eq_none_iff _ _).mp hpop
      have hh : heap = [] := by
        cases heap with
        | nil => rfl
        | cons a t => simp at hT
      subst hh
      simp only [List.nil_append] at hT
      have ho : orig = [] := by
        cases orig with
        | nil => rfl
        | cons a t =>
          simp only [List.length_nil, Nat.sub_zero] at hT
          cases ws with
          | zero => omega
          | succ k => simp at hT
      rw [ho] at hp
      simp at hp
    | some mr =>
      obtain ⟨m, rest⟩ := mr
      rw [runNext_listStep_succ_some Prod.snd hpop, List.map_cons]
      have hperm := popMaxBy_perm Prod.snd hpop
      have hub := popMaxBy_le Prod.snd hpop
      have hmem := popMaxBy_mem Prod.snd hpop
      have hlenT := popMaxBy_length Prod.snd hpop
      have hsum : (heap ++ orig.take (ws - heap.length)).length +
          (orig.drop (ws - heap.length)).length = heap.length + orig.length := by
        rw [← List.length_append, hTD, List.length_append]
      have hdisj' : ∀ a ∈ rest, ∀ b ∈ orig.drop (ws - heap.length), a.1 < b.1 := by
        intro a ha b hb
        exact hcross a (hperm.symm.subset (List.mem_cons_of_mem m ha)) b hb
      have hp' : p ∈ (heap ++ orig.take (ws - heap.length)) ++
          orig.drop (ws - heap.length) := by rw [hTD]; exact hp
      have hq' : q ∈ (heap ++ orig.take (ws - heap.length)) ++
          orig.drop (ws - heap.length) := by rw [hTD]; exact hq
      have hrec_perm :
          (runNext Prod.snd listStep fuel
              ⟨orig.drop (ws - heap.length), ws, rest⟩).Perm
            (rest ++ orig.drop (ws - heap.length)) :=
        runNext_perm Prod.snd fuel ws (orig.drop (ws - heap.length)) rest
          (by omega) (Or.inl hws)
      by_cases hmp : m = p
      · subst hmp
        refine List.Sublist.cons₂ m.1 ?_
        rw [List.singleton_sublist]
        have hqrest : q ∈ rest ++ orig.drop (ws - heap.length) := by
          rcases List.mem_append.mp hq' with hqT | hqD
          · rcases List.mem_cons.mp (hperm.subset hqT) with rfl | hqr
            · exact absurd hpq (lt_irrefl _)
            · exact List.mem_append.mpr (Or.inl hqr)
          · exact List.mem_append.mpr (Or.inr hqD)
        exact List.mem_map_of_mem Prod.fst (hrec_perm.symm.subset hqrest)
      · by_cases hmq : m = q
        · exfalso
          subst hmq
          rcases List.mem_append.mp hp' with hpT | hpD
          · exact absurd (lt_of_lt_of_le hval (hub p hpT)) (lt_irrefl _)
          · exact absurd (lt_trans hpq (hcross m hmem p hpD)) (lt_irrefl _)
        · have hprest : p ∈ rest ++ orig.drop (ws - heap.length) := by
            rcases List.mem_append.mp hp' with hpT | hpD
            · rcases List.mem_cons.mp (hperm.subset hpT) with rfl | hpr
              · exact absurd rfl hmp
              · exact List.mem_append.mpr (Or.inl hpr)
            · exact List.mem_append.mpr (Or.inr hpD)
          have hqrest : q ∈ rest ++ orig.drop (ws - heap.length) := by
            rcases List.mem_append.mp hq' with hqT | hqD
            · rcases List.mem_cons.mp (hperm.subset hqT) with rfl | hqr
              · exact absurd rfl hmq
              · exact List.mem_append.mpr (Or.inl hqr)
            · exact List.mem_append.mpr (Or.inr hqD)
          have hrec := ih ws (orig.drop (ws - heap.length)) rest (by omega) hws
            hdisj' hpw' p q hprest hqrest hpq hval
          exact hrec.cons m.1

theorem indexOf_lt_of_pair_sublist {a b : Nat} :
    ∀ (l : List Nat), l.Nodup → List.Sublist [a, b] l →
      l.indexOf a < l.indexOf b := by
  intro l
  induction l with
  | nil => intro _ h; exact absurd h (by simp)
  | cons x t ih =>
    intro hnd hs
    obtain ⟨hxt, hndt⟩ := List.nodup_cons.mp hnd
    cases hs with
    | cons _ h =>
      have ha : a ∈ t := h.subset (by simp)
      have hb : b ∈ t := h.subset (by simp)
      have hxa : x ≠ a := fun e => hxt (e ▸ ha)
      have hxb : x ≠ b := fun e => hxt (e ▸ hb)
      rw [List.indexOf_cons_ne t hxa, List.indexOf_cons_ne t hxb]
      exact Nat.succ_lt_succ (ih hndt h)
    | cons₂ _ h =>
      have hb : b ∈ t := h.subset (by simp)
      have hab : a ≠ b := fun e => hxt (e ▸ hb)
      rw [List.indexOf_cons_self, List.indexOf_cons_ne t hab]
      exact Nat.succ_pos _

/-! ### Claim C2: window-local emission order -/

/-- C2 (amended): for input positions `i < j` with `j - i < window_size`, and
additionally the item at `i` strictly greater than the item at `j`, the two
items are emitted in correctly sorted relative order: in the position-tagged
run, tag `i` is emitted strictly before tag `j`.  (The extra hypothesis is
necessary: when the earlier item is the smaller one, proximity within the
window does not guarantee sorted emission order — see the counterexample — and
for equal items either order is correctly sorted.  The proof in fact never
uses `j - i < window_size` beyond `window_size ≥ 1`: an earlier, strictly
greater item is always emitted first, at any distance.) -/
theorem windowSortTagged_order [LinearOrder α] (window_size i j : Nat)
    (l : List α) (hij : i < j) (hj : j < l.length)
    (hwin : j - i < window_size)
    (hval : l.get ⟨j, hj⟩ < l.get ⟨i, lt_trans hij hj⟩) :
    ((windowSortTagged window_size l).map Prod.fst).indexOf i <
      ((windowSortTagged window_size l).map Prod.fst).indexOf j := by
  have hws : 1 ≤ window_size := by omega
  have hi : i < l.length := lt_trans hij hj
  have hsub := runNext_tag_order l.length window_size (tagFrom 0 l) []
    (by simp [length_tagFrom]) hws (by simp) (pairwise_tagFrom 0 l)
    (i, l.get ⟨i, hi⟩) (j, l.get ⟨j, hj⟩)
    (by simpa using get_mem_tagFrom 0 l i hi)
    (by simpa using get_mem_tagFrom 0 l j hj) hij hval
  have hperm : (windowSortTagged window_size l).Perm (tagFrom 0 l) := by
    simpa [windowSortTagged, window_sort] using
      runNext_perm Prod.snd l.length window_size (tagFrom 0 l) []
        (by simp [length_tagFrom]) (Or.inl hws)
  have hnodup : ((windowSortTagged window_size l).map Prod.fst).Nodup := by
    refine (hperm.map Prod.fst).nodup_iff.mpr ?_
    have hpw : ((tagFrom 0 l).map Prod.fst).Pairwise (· < ·) :=
      List.pairwise_map.mpr (pairwise_tagFrom 0 l)
    exact hpw.imp ne_of_lt
  exact indexOf_lt_of_pair_sublist _ hnodup hsub

/-- Witness for C2's theorem at `window_size = 2`, input `[3, 2]`, positions
`0 < 1`. -/
theorem windowSortTagged_order_witness :
    (0 : Nat) < 1 ∧ 1 - 0 < 2 ∧
      ([3, 2] : List Nat).get ⟨1, by decide⟩ < ([3, 2] : List Nat).get ⟨0, by decide⟩ ∧
      ((windowSortTagged 2 ([3, 2] : List Nat)).map Prod.fst).indexOf 0 <
        ((windowSortTagged 2 ([3, 2] : List Nat)).map Prod.fst).indexOf 1 :=
  ⟨by decide, by decide, by decide,
    windowSortTagged_order 2 0 1 [3, 2] (by decide) (by decide) (by decide)
      (by decide)⟩

/-- Counterexample to C2 as stated: input `[2, 0, 1, 3]`, `window_size = 2`,
positions `i = 2`, `j = 3` are adjacent (`j - i < window_size`), the item at
`j` is the larger, yet the smaller item at `i` is emitted first: the tagged
output is `[(0,2), (2,1), (3,3), (1,0)]`, so the claimed sorted relative order
fails.  (The buffered `0` occupies the two-item window, so position 3 is not
pulled until position 2 has already been emitted.) -/
theorem windowSortTagged_window_pair_cex :
    (2 : Nat) < 3 ∧ 3 - 2 < 2 ∧
      ([2, 0, 1, 3] : List Nat).get ⟨2, by decide⟩ <
        ([2, 0, 1, 3] : List Nat).get ⟨3, by decide⟩ ∧
      ¬ (((windowSortTagged 2 ([2, 0, 1, 3] : List Nat)).map Prod.fst).indexOf 3 ≤
          ((windowSortTagged 2 ([2, 0, 1, 3] : List Nat)).map Prod.fst).indexOf 2) := by
  decide

/-! ### Generic facts about `next` -/

theorem next_eq [LinearOrder α] (key : β → α) (step : σ → Option β × σ)
    (w : WindowSort σ β) :
    WindowSort.next key step w =
      match popMaxBy key (fill step w.window_size w.orig w.heap).2 with
      | none => (none, ⟨(fill step w.window_size w.orig w.heap).1, w.window_size,
          (fill step w.window_size w.orig w.heap).2⟩)
      | some (m, rest) => (some m, ⟨(fill step w.window_size w.orig w.heap).1,
          w.window_size, rest⟩) := rfl

theorem next_window_size [LinearOrder α] (key : β → α)
    (step : σ → Option β × σ) (w : WindowSort σ β) :
    ((WindowSort.next key step w).2).window_size = w.window_size := by
  rw [next_eq]
  cases hp : popMaxBy key (fill step w.window_size w.orig w.heap).2 with
  | none => rfl
  | some mr => obtain ⟨m, rest⟩ := mr; rfl

theorem next_heap_length_le [LinearOrder α] (key : β → α)
    (step : σ → Option β × σ) (w : WindowSort σ β)
    (hle : w.heap.length ≤ w.window_size) :
    ((WindowSort.next key step w).2).heap.length ≤ w.window_size := by
  have hfill : (fill step w.window_size w.orig w.heap).2.length ≤ w.window_size :=
    fillAux_length_le step w.window_size _ w.orig w.heap hle
  rw [next_eq]
  cases hp : popMaxBy key (fill step w.window_size w.orig w.heap).2 with
  | none => simpa using hfill
  | some mr =>
    obtain ⟨m, rest⟩ := mr
    have hlen := popMaxBy_length key hp
    show rest.length ≤ w.window_size
    omega

/-! ### Claim C4: the window-bound invariant -/

theorem fillAux_flagStep_exhausted (ws : Nat) :
    ∀ (fuel : Nat) (s : List β × Bool) (h : List β),
      ws ≤ h.length + fuel →
      (fillAux flagStep ws fuel s h).2.length < ws →
      (fillAux flagStep ws fuel s h).1.2 = true := by
  intro fuel
  induction fuel with
  | zero =>
    intro s h hle hlt
    exfalso
    simp only [fillAux] at hlt
    omega
  | succ fuel ih =>
    intro s h hle hlt
    by_cases hcond : h.length < ws
    · obtain ⟨l, f⟩ := s
      cases l with
      | nil => simp [fillAux, if_pos hcond, flagStep]
      | cons x xs =>
        simp only [fillAux, if_pos hcond, flagStep] at hlt ⊢
        refine ih (xs, f) (h ++ [x]) ?_ hlt
        simp only [List.length_append, List.length_cons, List.length_nil]
        omega
    · exfalso
      simp only [fillAux, if_neg hcond] at hlt
      omega

/-- C4 (amended): for any adapter state within the bound (the heap holds at
most `window_size` items, which holds initially and is preserved by `next`),
immediately after the fill phase of a call to `next` — just before the pop —
the heap holds at most `window_size` items, and strictly fewer only if the
input iterator has already reported exhaustion; moreover the bound
`heap ≤ window_size` still holds at the end of the call.  (As stated the claim
is false: at the end of a normal call the heap holds `window_size - 1` items
with the input not exhausted, since the pop follows the fill — see the
counterexample.) -/
theorem fill_window_inv [LinearOrder α] (w : WindowSort (List α × Bool) α)
    (hle : w.heap.length ≤ w.window_size) :
    (fill flagStep w.window_size w.orig w.heap).2.length ≤ w.window_size ∧
      ((fill flagStep w.window_size w.orig w.heap).2.length < w.window_size →
        (fill flagStep w.window_size w.orig w.heap).1.2 = true) ∧
      ((WindowSort.next id flagStep w).2).heap.length ≤ w.window_size := by
  refine ⟨fillAux_length_le flagStep w.window_size _ w.orig w.heap hle, ?_,
    next_heap_length_le id flagStep w hle⟩
  intro hlt
  exact fillAux_flagStep_exhausted w.window_size _ w.orig w.heap (by omega) hlt

/-- Witness for C4's theorem: the freshly constructed adapter over input
`[5]` with `window_size = 1`. -/
theorem fill_window_inv_witness :
    (window_sort (([5], false) : List Nat × Bool) 1 :
        WindowSort (List Nat × Bool) Nat).heap.length ≤
      (window_sort (([5], false) : List Nat × Bool) 1 :
        WindowSort (List Nat × Bool) Nat).window_size ∧
    ((WindowSort.next id flagStep
        (window_sort (([5], false) : List Nat × Bool) 1)).2).heap.length ≤
      (window_sort (([5], false) : List Nat × Bool) 1 :
        WindowSort (List Nat × Bool) Nat).window_size :=
  ⟨by decide,
    (fill_window_inv (window_sort (([5], false) : List Nat × Bool) 1)
      (by decide)).2.2⟩

/-- Counterexample to C4 as stated: over input `[1, 2, 3]` with
`window_size = 2`, at the end of the first call to `next` the heap holds one
item (fewer than `window_size`), yet the input iterator has not reported
exhaustion — it still holds `[3]` and its exhaustion flag is `false`. -/
theorem window_inv_end_of_call_cex :
    ¬ ((((WindowSort.next id flagStep
          (window_sort ((([1, 2, 3] : List Nat), false)) 2)).2).heap.length < 2 →
        ((WindowSort.next id flagStep
          (window_sort ((([1, 2, 3] : List Nat), false)) 2)).2).orig.2 = true)) := by
  decide

/-! ### Claim C6: exhaustion stability -/

theorem fill_zero (step : σ → Option β × σ) (s : σ) (h : List β) :
    fill step 0 s h = (s, h) := by
  unfold fill
  rw [Nat.zero_sub]
  rfl

theorem fill_succ_nil_some (step : σ → Option β × σ) (k : Nat) (s s' : σ)
    (a : β) (hs : step s = (some a, s')) :
    fill step (k + 1) s [] = fillAux step (k + 1) k s' [a] := by
  unfold fill
  simp only [List.length_nil, Nat.sub_zero]
  simp only [fillAux, hs]
  rw [if_pos (by simp)]
  rfl

theorem fill_succ_nil_none (step : σ → Option β × σ) (k : Nat) (s s' : σ)
    (hs : step s = (none, s')) :
    fill step (k + 1) s [] = (s', []) := by
  unfold fill
  simp only [List.length_nil, Nat.sub_zero]
  simp only [fillAux, hs]
  rw [if_pos (by simp)]

theorem next_none_heap [LinearOrder α] (key : β → α) (step : σ → Option β × σ)
    (w : WindowSort σ β) (hn : (WindowSort.next key step w).1 = none) :
    w.heap = [] ∧ ((WindowSort.next key step w).2).heap = [] ∧
      (w.window_size = 0 ∧ ((WindowSort.next key step w).2).orig = w.orig ∨
        0 < w.window_size ∧ (step w.orig).1 = none ∧
          ((WindowSort.next key step w).2).orig = (step w.orig).2) := by
  cases hp : popMaxBy key (fill step w.window_size w.orig w.heap).2 with
  | some mr =>
    exfalso
    obtain ⟨m, rest⟩ := mr
    rw [next_eq, hp] at hn
    simp at hn
  | none =>
    have hfe : (fill step w.window_size w.orig w.heap).2 = [] :=
      (popMaxBy_eq_none_iff key _).mp hp
    obtain ⟨t, ht⟩ :=
      fillAux_heap_append step w.window_size (w.window_size - w.heap.length)
        w.orig w.heap
    have hheap : w.heap = [] :=
      (List.append_eq_nil.mp (by rw [← ht]; exact hfe)).1
    have hnext2 : (WindowSort.next key step w).2 =
        ⟨(fill step w.window_size w.orig w.heap).1, w.window_size,
          (fill step w.window_size w.orig w.heap).2⟩ := by
      rw [next_eq, hp]
    refine ⟨hheap, by rw [hnext2]; exact hfe, ?_⟩
    rcases Nat.eq_zero_or_pos w.window_size with hws | hws
    · refine Or.inl ⟨hws, ?_⟩
      have hfill0 : fill step w.window_size w.orig w.heap = (w.orig, w.heap) := by
        rw [hws, hheap]
        exact fill_zero step w.orig []
      rw [hnext2, hfill0]
    · obtain ⟨k, hk⟩ : ∃ k, w.window_size = k + 1 := ⟨w.window_size - 1, by omega⟩
      rcases hstep : step w.orig with ⟨o, s'⟩
      cases o with
      | some a =>
        exfalso
        have hfa : fill step w.window_size w.orig w.heap =
            fillAux step (k + 1) k s' [a] := by
          rw [hk, hheap]
          exact fill_succ_nil_some step k w.orig s' a hstep
        obtain ⟨t2, ht2⟩ := fillAux_heap_append step (k + 1) k s' [a]
        rw [hfa, ht2] at hfe
        simp at hfe
      | none =>
        have hfn : fill step w.window_size w.orig w.heap = (s', []) := by
          rw [hk, hheap]
          exact fill_succ_nil_none step k w.orig s' hstep
        refine Or.inr ⟨hws, rfl, ?_⟩
        rw [hnext2, hfn]

theorem next_none_step [LinearOrder α] (key : β → α)
    (step : σ → Option β × σ) (hst : Sticky step) (w : WindowSort σ β)
    (hn : (WindowSort.next key step w).1 = none) :
    (WindowSort.next key step (WindowSort.next key step w).2).1 = none := by
  obtain ⟨hheap, hheap', hcases⟩ := next_none_heap key step w hn
  have hws' := next_window_size key step w
  rcases hcases with ⟨hws0, horig⟩ | ⟨hwspos, hstep1, horig⟩
  · have hfill0 : fill step ((WindowSort.next key step w).2).window_size
        ((WindowSort.next key step w).2).orig
        ((WindowSort.next key step w).2).heap =
        (((WindowSort.next key step w).2).orig, []) := by
      rw [hws', hws0, hheap']
      exact fill_zero step _ []
    rw [next_eq, hfill0]
    rfl
  · have hstick : (step ((WindowSort.next key step w).2).orig).1 = none := by
      rw [horig]
      exact hst w.orig hstep1
    obtain ⟨k, hk⟩ : ∃ k, ((WindowSort.next key step w).2).window_size = k + 1 :=
      ⟨w.window_size - 1, by omega⟩
    have hfn : fill step ((WindowSort.next key step w).2).window_size
        ((WindowSort.next key step w).2).orig
        ((WindowSort.next key step w).2).heap =
        ((step ((WindowSort.next key step w).2).orig).2, []) := by
      rw [hk, hheap']
      refine fill_succ_nil_none step k _ _ ?_
      rcases hs2 : step ((WindowSort.next key step w).2).orig with ⟨o, s2⟩
      rw [hs2] at hstick
      simp only at hstick
      rw [hstick]
    rw [next_eq, hfn]
    rfl

/-- C6: for an input iterator with sticky exhaustion, once `next` has returned
the no-item signal, every subsequent call to `next` (after any further number
`n` of calls) also returns the no-item signal. -/
theorem next_none_forever [LinearOrder α] (key : β → α)
    (step : σ → Option β × σ) (hst : Sticky step) :
    ∀ (n : Nat) (w : WindowSort σ β),
      (WindowSort.next key step w).1 = none →
      (WindowSort.next key step
        (iterNexts key step n (WindowSort.next key step w).2)).1 = none := by
  intro n
  induction n with
  | zero => intro w hn; exact next_none_step key step hst w hn
  | succ n ih =>
    intro w hn
    exact ih (WindowSort.next key step w).2 (next_none_step key step hst w hn)

theorem sticky_listStep : Sticky (listStep (β := β)) := by
  intro s hs
  cases s with
  | nil => rfl
  | cons x xs => simp [listStep] at hs

/-- Witness for C6's theorem: the list iterator is sticky; over the empty
input with `window_size = 1` the first call returns `none`, and so does the
call after `n = 0` further calls. -/
theorem next_none_forever_witness :
    (WindowSort.next id listStep (window_sort ([] : List Nat) 1)).1 = none ∧
      (WindowSort.next id listStep
        (iterNexts id listStep 0
          (WindowSort.next id listStep (window_sort ([] : List Nat) 1)).2)).1 =
        none :=
  ⟨by decide,
    next_none_forever id listStep sticky_listStep 0 (window_sort [] 1)
      (by decide)⟩

/-! ### Claim C7: the size hint -/

/-- C7 (amended): in every adapter state, the reported size estimate has lower
bound `min (input lower bound + heap size) usize::MAX` and upper bound
`min (input upper bound + heap size) usize::MAX` when the input's upper bound
is known, or unknown otherwise.  (The source uses `saturating_add`, so the
claim's plain sums hold only below the `usize::MAX` cap — see the
counterexample at a huge reported lower bound.) -/
theorem size_hint_saturating (hint : σ → Nat × Option Nat) (w : WindowSort σ β) :
    WindowSort.size_hint hint w =
      (min ((hint w.orig).1 + w.heap.length) USIZE_MAX,
        Option.map (fun u => min (u + w.heap.length) USIZE_MAX)
          (hint w.orig).2) := by
  rcases hh : hint w.orig with ⟨lo, up⟩
  cases up with
  | none => simp [WindowSort.size_hint, hh, satAdd]
  | some u => simp [WindowSort.size_hint, hh, satAdd]

/-- An iterator like `std::iter::repeat`: it always yields an item and
reports the size hint `(usize::MAX, None)`. -/
def repStep : Unit → Option Nat × Unit := fun _ => (some 0, ())

/-- The size hint of `std::iter::repeat`. -/
def repHint : Unit → Nat × Option Nat := fun _ => (USIZE_MAX, none)

/-- Counterexample to C7 as stated: wrap the repeat iterator with
`window_size = 2` and call `next` once; the heap then holds one item and the
input still reports lower bound `usize::MAX`, so the adapter's saturating
lower bound `usize::MAX` differs from the claimed plain sum
`usize::MAX + 1`. -/
theorem size_hint_cex :
    (WindowSort.size_hint repHint
        ((WindowSort.next id repStep (window_sort () 2)).2)).1 ≠
      (repHint ((WindowSort.next id repStep (window_sort () 2)).2).orig).1 +
        ((WindowSort.next id repStep (window_sort () 2)).2).heap.length := by
  have hstate : (WindowSort.next id repStep (window_sort () 2)).2 =
      ⟨(), 2, [0]⟩ := rfl
  rw [hstate]
  show min (USIZE_MAX + 1) USIZE_MAX ≠ USIZE_MAX + 1
  rw [min_eq_right (Nat.le_succ _)]
  omega

/-! ### Claim C8: a misbehaving producer cannot overfill the window -/

theorem iterNexts_window_size [LinearOrder α] (key : β → α)
    (step : σ → Option β × σ) :
    ∀ (n : Nat) (w : WindowSort σ β),
      (iterNexts key step n w).window_size = w.window_size := by
  intro n
  induction n with
  | zero => intro w; rfl
  | succ n ih =>
    intro w
    rw [iterNexts, ih, next_window_size]

/-- C8 (amended): the heap can never hold more than `window_size` items, no
matter how the input iterator behaves — in particular even if it yields an
item after having reported exhaustion.  Starting from any state within the
bound (such as a freshly constructed adapter), after any number of calls to
`next` the heap still holds at most `window_size` items: the fill loop only
pushes while the heap is strictly below `window_size`, so non-sticky input
merely has its extra items buffered and emitted.  (The claimed overflow is
refuted concretely by the counterexample.) -/
theorem heap_le_window_size_iter [LinearOrder α] (key : β → α)
    (step : σ → Option β × σ) :
    ∀ (n : Nat) (w : WindowSort σ β),
      w.heap.length ≤ w.window_size →
      (iterNexts key step n w).heap.length ≤ w.window_size := by
  intro n
  induction n with
  | zero => intro w hle; exact hle
  | succ n ih =>
    intro w hle
    rw [iterNexts]
    have h1 : ((WindowSort.next key step w).2).heap.length ≤
        ((WindowSort.next key step w).2).window_size := by
      rw [next_window_size]
      exact next_heap_length_le key step w hle
    have h2 := ih (WindowSort.next key step w).2 h1
    rw [next_window_size] at h2
    exact h2

/-- A non-sticky iterator: it yields `1`, reports exhaustion once, and then
yields `5` — violating the sticky-exhaustion assumption. -/
def cexStep : Nat → Option Nat × Nat
  | 0 => (some 1, 1)
  | 1 => (none, 2)
  | 2 => (some 5, 3)
  | n + 3 => (none, n + 4)

/-- Witness for C8's theorem: the non-sticky `cexStep` iterator wrapped with
`window_size = 2`, after 3 calls to `next` starting from the fresh adapter. -/
theorem heap_le_window_size_iter_witness :
    (window_sort 0 2 : WindowSort Nat Nat).heap.length ≤
        (window_sort 0 2 : WindowSort Nat Nat).window_size ∧
      (iterNexts id cexStep 3 (window_sort 0 2)).heap.length ≤
        (window_sort 0 2 : WindowSort Nat Nat).window_size :=
  ⟨by decide, heap_le_window_size_iter id cexStep 3 (window_sort 0 2) (by decide)⟩

/-- Counterexample to C8 as stated: `cexStep` reports exhaustion at state `1`
and then yields `5` from state `2` (during the second call to `next`), yet at
every subsequent point the window holds at most `window_size = 2` items —
never more. -/
theorem heap_overflow_cex :
    (cexStep 1).1 = none ∧ (cexStep 2).1 = some 5 ∧
      ¬ (2 < (iterNexts id cexStep 2 (window_sort 0 2)).heap.length) ∧
      ¬ (2 < (iterNexts id cexStep 3 (window_sort 0 2)).heap.length) ∧
      ¬ (2 < (iterNexts id cexStep 4 (window_sort 0 2)).heap.length) := by
  decide

end WindowSortIter
